import Mathlib

/-!
# Verification of the Slurdle word-guessing game

Shallow embedding of `src/wordle/website.py` (a single-file Streamlit
Wordle-like game) and proofs about its feedback algorithm, keyboard
tracker and session state machine.

Strings are modelled as `List Char`, the per-letter feedback codes as
`Int` (the python ints 0 = absent, 1 = present, 2 = correct), the
`remaining` counting dict of `wordle_feedback` as a total function
`Char → Nat` defaulting to 0 (its values never go negative: every
decrement is guarded by `> 0`), and the keyboard dict as a partial map
`Char → Option Int`.
-/

namespace Slurdle

/-- `WORD_LENGTH = 5` from the source. -/
def WORD_LENGTH : Nat := 5

/-- `MAX_GUESSES = 6` from the source. -/
def MAX_GUESSES : Nat := 6

/-- Bump the counter of `c` in a counting dict (`remaining[a] = remaining.get(a, 0) + 1`). -/
def incr (f : Char → Nat) (c : Char) : Char → Nat :=
  fun x => if x = c then f x + 1 else f x

/-- Drop the counter of `c` by one (`remaining[g] -= 1`, only called when positive). -/
def decr (f : Char → Nat) (c : Char) : Char → Nat :=
  fun x => if x = c then f x - 1 else f x

/-- First pass of `wordle_feedback` (lines 44-50 of the source): walk
`zip(guess, answer)` left to right; produce 2 at exact matches and 0
elsewhere, and count in `remaining` each answer letter not exactly
matched. Returns the partial result list (one entry per zipped
position) together with the final `remaining` dict. -/
def pass1 (guess answer : List Char) (rem : Char → Nat) : List Int × (Char → Nat) :=
  match guess, answer with
  | g :: gs, a :: as_ =>
    if g = a then
      let p := pass1 gs as_ rem
      (2 :: p.1, p.2)
    else
      let p := pass1 gs as_ (incr rem a)
      (0 :: p.1, p.2)
  | _, _ => ([], rem)

/-- Second pass of `wordle_feedback` (lines 51-57 of the source): walk
`enumerate(guess)`; entries already nonzero are kept, otherwise mark 1
and decrement when `remaining.get(g, 0) > 0`, else leave 0. Positions
of `res` beyond the length of `guess` are returned unchanged, as in the
python loop over `enumerate(guess)`. -/
def pass2 (rem : Char → Nat) (guess : List Char) (res : List Int) : List Int :=
  match guess, res with
  | g :: gs, r :: rs =>
    if r ≠ 0 then r :: pass2 rem gs rs
    else if rem g > 0 then 1 :: pass2 (decr rem g) gs rs
    else 0 :: pass2 rem gs rs
  | _, rs => rs

/-- `wordle_feedback(guess, answer)` (source lines 39-58): the result
list starts as `[0] * WORD_LENGTH`; pass 1 fills the zipped positions,
pass 2 turns qualifying zeros into 1s. Faithful to the python for
`guess.length ≤ WORD_LENGTH` and `answer.length ≤ WORD_LENGTH` (beyond
that the python writes out of range and raises `IndexError`; the app
only calls it with validated length-`WORD_LENGTH` words). -/
def wordle_feedback (guess answer : List Char) : List Int :=
  let p := pass1 guess answer (fun _ => 0)
  pass2 p.2 guess (p.1 ++ List.replicate (WORD_LENGTH - min guess.length answer.length) 0)

/-- Positions the feedback marks Present-or-Correct (code ≠ 0) for letter `c`. -/
def markedPC (c : Char) (guess : List Char) (fb : List Int) : Nat :=
  ((guess.zip fb).filter (fun p => p.1 == c && p.2 != 0)).length

/-- Positions the feedback marks Absent (code 0) for letter `c`. -/
def markedAbsent (c : Char) (guess : List Char) (fb : List Int) : Nat :=
  ((guess.zip fb).filter (fun p => p.1 == c && p.2 == 0)).length

/-- Write one key of the keyboard dict (`kb[ch] = v`). -/
def kb_set (kb : Char → Option Int) (c : Char) (v : Int) : Char → Option Int :=
  fun x => if x = c then some v else kb x

/-- Dict lookup with default (`kb.get(ch, d)`). -/
def kb_get (kb : Char → Option Int) (c : Char) (d : Int) : Int :=
  (kb c).getD d

/-- `update_keyboard(kb, guess, fb)` (source lines 61-65): for each
`(ch, s)` in `zip(guess, fb)`, set `kb[ch] = max(kb.get(ch, -1), s)`.
The python mutates `kb` in place; here the updated map is returned. -/
def update_keyboard (kb : Char → Option Int) (guess : List Char) (fb : List Int) :
    Char → Option Int :=
  (guess.zip fb).foldl (fun k p => kb_set k p.1 (max (kb_get k p.1 (-1)) p.2)) kb

/-- `STATUS_TO_CLASS` (source line 82): the renderer's status → CSS class
dict; `none` models a `KeyError` on any status outside 0, 1, 2. -/
def STATUS_TO_CLASS : Int → Option String :=
  fun s => if s = 0 then some "t0" else if s = 1 then some "t1"
           else if s = 2 then some "t2" else none

/-- Python `str.strip()`: drop whitespace from both ends. -/
def pyStrip (s : List Char) : List Char :=
  ((s.dropWhile Char.isWhitespace).reverse.dropWhile Char.isWhitespace).reverse

/-- Python `str.lower()` on the ASCII input the text box supplies. -/
def pyLower (s : List Char) : List Char :=
  s.map Char.toLower

/-- Source line 148: `guess = st.text_input(...).strip().lower()` — the
normalization the app applies to the raw text before validating it. -/
def normalize (raw : List Char) : List Char :=
  pyLower (pyStrip raw)

/-- Source line 160's test, positively: exactly `WORD_LENGTH` characters
and every character in `string.ascii_lowercase`. -/
def validGuess (g : List Char) : Bool :=
  g.length == WORD_LENGTH && g.all (fun c => 'a' ≤ c && c ≤ 'z')

/-- The errors the submit handler can surface: the `st.error` message of
line 161 for a failed validation, and the fact that once
`st.session_state.game_over` is true the guess widget is not rendered at
all (line 147), so no further submission is possible. -/
inductive GameErr where
  | InvalidGuess
  | SessionTerminated
deriving DecidableEq, Repr

/-- Which terminal branch of the submit handler fired: the win message of
line 171 (`Won`), the out-of-guesses message of line 174 (`Lost`), or
neither (`Continue`). -/
inductive Outcome where
  | Won
  | Lost
  | Continue
deriving DecidableEq, Repr

/-- The per-player state held in `st.session_state` (source lines 116-127):
the loaded word list, the secret answer, the submitted guesses with
their feedbacks, the keyboard dict, and the `game_over` flag. -/
structure Session where
  words : List (List Char)
  answer : List Char
  guesses : List (List Char)
  feedbacks : List (List Int)
  keyboard : Char → Option Int
  game_over : Bool

/-- `choose_answer` (source lines 35-36): `random.choice(words)` returns
some element of the list, chosen by an index `k` supplied here in place
of the random draw; on an empty list it raises `IndexError` (`none`). -/
def choose_answer (words : List (List Char)) (k : Nat) : Option (List Char) :=
  words[k % words.length]?

/-- The submitted-guess handler (source lines 147-177): when the game is
over the input widget is absent, so a submission is impossible
(`SessionTerminated`); otherwise the raw text is stripped and lowercased
(line 148), validated (line 160) — failure shows an error and changes
nothing (`InvalidGuess`) — and on success the guess and its feedback are
appended, the keyboard updated, and `game_over` set when the guess
matches the answer (win branch, line 170) or the guess count reaches
`MAX_GUESSES` (loss branch, line 173). -/
def submitGuess (s : Session) (raw : List Char) : Except GameErr (Session × Outcome) :=
  if s.game_over then .error .SessionTerminated
  else
    let guess := normalize raw
    if validGuess guess then
      let fb := wordle_feedback guess s.answer
      let s' : Session :=
        { s with guesses := s.guesses ++ [guess],
                 feedbacks := s.feedbacks ++ [fb],
                 keyboard := update_keyboard s.keyboard guess fb }
      if guess = s.answer then .ok ({ s' with game_over := true }, .Won)
      else if s'.guesses.length ≥ MAX_GUESSES then .ok ({ s' with game_over := true }, .Lost)
      else .ok (s', .Continue)
    else .error .InvalidGuess

/-- Submit a list of raw inputs in order; a failed submission leaves the
session as it was (the python session state is only mutated in the
success branch). -/
def submitMany (s : Session) (raws : List (List Char)) : Session :=
  raws.foldl (fun st r => match submitGuess st r with
    | .ok (st', _) => st'
    | .error _ => st) s

/-- The restart handlers (source lines 132-138 and 182-188): choose a new
answer via `choose_answer`, clear guesses, feedbacks and keyboard, and
reset `game_over`; `none` when `random.choice` raises on an empty word
list. -/
def restart (s : Session) (k : Nat) : Option Session :=
  (choose_answer s.words k).map fun a =>
    { s with answer := a, guesses := [], feedbacks := [],
             keyboard := fun _ => none, game_over := false }

/-- Session states reachable from a fresh session (source lines 116-127:
the initial state has an answer drawn from the loaded words, empty
guesses, feedbacks and keyboard, and `game_over = False`) by any
sequence of guess submissions and restarts. -/
inductive Reachable : Session → Prop where
  | init (words : List (List Char)) (k : Nat) (w : List Char)
      (hw : choose_answer words k = some w) :
      Reachable ⟨words, w, [], [], fun _ => none, false⟩
  | submit_ok {s s' : Session} {raw : List Char} {o : Outcome}
      (hs : Reachable s) (h : submitGuess s raw = .ok (s', o)) : Reachable s'
  | restart_ok {s s' : Session} {k : Nat}
      (hs : Reachable s) (h : restart s k = some s') : Reachable s'

/-- Fold a sequence of `update_keyboard` calls starting from the empty
keyboard dict (`st.session_state.keyboard = {}`, line 125). -/
def kbFold (updates : List (List Char × List Int)) : Char → Option Int :=
  updates.foldl (fun kb p => update_keyboard kb p.1 p.2) (fun _ => none)

/-- The invariant the submit handler maintains: at most `MAX_GUESSES`
guesses are stored, and strictly fewer whenever the game is still on. -/
def SessionInv (s : Session) : Prop :=
  s.guesses.length ≤ MAX_GUESSES ∧ (s.game_over = false → s.guesses.length < MAX_GUESSES)

end Slurdle

namespace Slurdle

/-! ## C2: the spec's end-to-end example -/

/-- C2 counterexample: the spec's worked example is miscomputed. Scoring
the guess "trace" against the answer "crane" does NOT return
`[0, 2, 1, 1, 2]`: the letter `a` sits at index 2 of both words, so the
first pass marks it Correct, not Present. -/
theorem trace_crane_spec_example_false :
    wordle_feedback "trace".toList "crane".toList ≠ [0, 2, 1, 1, 2] := by
  decide

/-- C2 amended: with `WORD_LENGTH = 5`, scoring the guess "trace" against
the answer "crane" returns `[Absent, Correct, Correct, Present, Correct]`,
i.e. `[0, 2, 2, 1, 2]` (T absent, R correct, A correct in place, C present
elsewhere, E correct). -/
theorem trace_crane_feedback :
    wordle_feedback "trace".toList "crane".toList = [0, 2, 2, 1, 2] := by
  decide

/-! ## C7: monotonicity of the keyboard tracker -/

/-- One step of `update_keyboard` never lowers a letter's recorded status. -/
lemma kbStep_mono (k : Char → Option Int) (p : Char × Int) (c : Char) (v : Int)
    (h : k c = some v) :
    ∃ v', kb_set k p.1 (max (kb_get k p.1 (-1)) p.2) c = some v' ∧ v ≤ v' := by
  unfold kb_set kb_get
  by_cases hc : c = p.1
  · subst hc
    exact ⟨max v p.2, by simp [h], le_max_left _ _⟩
  · exact ⟨v, by simp [hc, h], le_refl v⟩

/-- The fold inside `update_keyboard` never lowers a letter's recorded status. -/
lemma kbFoldl_mono (l : List (Char × Int)) :
    ∀ (kb : Char → Option Int) (c : Char) (v : Int), kb c = some v →
      ∃ v', (l.foldl (fun k p => kb_set k p.1 (max (kb_get k p.1 (-1)) p.2)) kb) c = some v' ∧
        v ≤ v' := by
  induction l with
  | nil => exact fun kb c v h => ⟨v, h, le_refl v⟩
  | cons p l ih =>
    intro kb c v h
    obtain ⟨u, hu, hvu⟩ := kbStep_mono kb p c v h
    obtain ⟨v', hv', huv'⟩ := ih _ c u hu
    exact ⟨v', hv', le_trans hvu huv'⟩

/-- C7: `update_keyboard` is monotonic. For every keyboard state, guess and
feedback, and every letter `c` with a recorded status, the status recorded
for `c` after the update is greater than or equal to the one before, in the
dominance order Correct (2) > Present (1) > Absent (0); in particular a
letter once marked Correct is never downgraded by a weaker observation. -/
theorem update_keyboard_monotone (kb : Char → Option Int) (guess : List Char)
    (fb : List Int) (c : Char) (v : Int) (h : kb c = some v) :
    ∃ v', update_keyboard kb guess fb c = some v' ∧ v ≤ v' :=
  kbFoldl_mono (guess.zip fb) kb c v h

/-- C7 witness: a keyboard that recorded Correct (2) for `a` keeps a status
at least 2 after an update reporting only Present (1) for `a`. -/
theorem update_keyboard_monotone_witness :
    ∃ v', update_keyboard (kb_set (fun _ => none) 'a' 2) "abide".toList [1, 1, 1, 1, 1] 'a'
        = some v' ∧ (2 : Int) ≤ v' :=
  update_keyboard_monotone (kb_set (fun _ => none) 'a' 2) "abide".toList [1, 1, 1, 1, 1]
    'a' 2 (by simp [kb_set])

/-! ## C9: restart resets the session -/

/-- C9: `restart` called from any state succeeds whenever the word source is
non-empty, and yields a session with empty history, empty feedbacks, empty
keyboard, the game-over flag cleared (state InProgress) and an answer
freshly chosen from the word source. -/
theorem restart_resets (s : Session) (k : Nat) (h : s.words ≠ []) :
    ∃ s', restart s k = some s' ∧ s'.guesses = [] ∧ s'.feedbacks = [] ∧
      s'.keyboard = (fun _ => none) ∧ s'.game_over = false ∧
      s'.answer ∈ s.words ∧ s'.words = s.words := by
  have hlen : 0 < s.words.length := List.length_pos.mpr h
  have hk : k % s.words.length < s.words.length := Nat.mod_lt _ hlen
  refine ⟨{ s with
              answer := s.words[k % s.words.length],
              guesses := [], feedbacks := [],
              keyboard := fun _ => none, game_over := false },
          ?_, rfl, rfl, rfl, rfl, List.getElem_mem hk, rfl⟩
  unfold restart choose_answer
  rw [List.getElem?_eq_getElem hk]
  rfl

/-- C9 witness: restarting a finished session over a one-word source. -/
theorem restart_resets_witness :
    ∃ s', restart ⟨["crane".toList], "crane".toList, ["crane".toList],
        [[2, 2, 2, 2, 2]], kb_set (fun _ => none) 'c' 2, true⟩ 0 = some s' ∧
      s'.guesses = [] ∧ s'.feedbacks = [] ∧ s'.keyboard = (fun _ => none) ∧
      s'.game_over = false ∧ s'.answer ∈ [("crane".toList : List Char)] ∧
      s'.words = [("crane".toList : List Char)] :=
  restart_resets _ 0 (by decide)

/-! ## C10: keyboard values stay in {0, 1, 2} -/

/-- One `update_keyboard`-style fold step keeps every stored status in
{0, 1, 2} as long as the observed code is. -/
lemma kbFoldl_valid (l : List (Char × Int)) :
    ∀ (kb : Char → Option Int),
      (∀ c v, kb c = some v → v = 0 ∨ v = 1 ∨ v = 2) →
      (∀ p ∈ l, p.2 = 0 ∨ p.2 = 1 ∨ p.2 = 2) →
      ∀ c v, (l.foldl (fun k p => kb_set k p.1 (max (kb_get k p.1 (-1)) p.2)) kb) c = some v →
        v = 0 ∨ v = 1 ∨ v = 2 := by
  induction l with
  | nil => exact fun kb hkb _ => hkb
  | cons p l ih =>
    intro kb hkb hl
    refine ih _ ?_ (fun q hq => hl q (List.mem_cons_of_mem p hq))
    intro c v hc
    have hp2 : p.2 = 0 ∨ p.2 = 1 ∨ p.2 = 2 := hl p (List.mem_cons_self p l)
    unfold kb_set kb_get at hc
    by_cases hcp : c = p.1
    · simp only [hcp, if_pos rfl, Option.some.injEq] at hc
      cases hkp : kb p.1 with
      | none => rw [hkp] at hc; simp at hc; omega
      | some u =>
        have hu := hkb p.1 u hkp
        rw [hkp] at hc; simp at hc; omega
    · exact hkb c v (by simpa [hcp] using hc)

/-- `update_keyboard` keeps every stored status in {0, 1, 2} as long as
the supplied feedback codes are. -/
lemma update_keyboard_valid (kb : Char → Option Int) (g : List Char) (fb : List Int)
    (hkb : ∀ c v, kb c = some v → v = 0 ∨ v = 1 ∨ v = 2)
    (hfb : ∀ v ∈ fb, v = 0 ∨ v = 1 ∨ v = 2) :
    ∀ c v, update_keyboard kb g fb c = some v → v = 0 ∨ v = 1 ∨ v = 2 := by
  refine kbFoldl_valid (g.zip fb) kb hkb ?_
  intro p hp
  exact hfb p.2 (List.of_mem_zip hp).2

/-- C10: after any sequence of `update_keyboard` calls whose feedback
values lie in {0, 1, 2}, starting from the empty keyboard, every status
stored in the keyboard dict is 0, 1 or 2 — the −1 default never persists —
so the renderer's `STATUS_TO_CLASS` lookup succeeds for every recorded
letter. -/
theorem kbFold_values_valid (updates : List (List Char × List Int))
    (hfb : ∀ p ∈ updates, ∀ v ∈ p.2, v = 0 ∨ v = 1 ∨ v = 2) :
    ∀ c v, kbFold updates c = some v →
      (v = 0 ∨ v = 1 ∨ v = 2) ∧ (STATUS_TO_CLASS v).isSome = true := by
  have main : ∀ (us : List (List Char × List Int)) (kb : Char → Option Int),
      (∀ c v, kb c = some v → v = 0 ∨ v = 1 ∨ v = 2) →
      (∀ p ∈ us, ∀ v ∈ p.2, v = 0 ∨ v = 1 ∨ v = 2) →
      ∀ c v, (us.foldl (fun kb p => update_keyboard kb p.1 p.2) kb) c = some v →
        v = 0 ∨ v = 1 ∨ v = 2 := by
    intro us
    induction us with
    | nil => exact fun kb hkb _ => hkb
    | cons p l ih =>
      intro kb hkb hl
      exact ih _ (update_keyboard_valid kb p.1 p.2 hkb (hl p (List.mem_cons_self p l)))
        (fun q hq => hl q (List.mem_cons_of_mem p hq))
  intro c v hv
  have h012 : v = 0 ∨ v = 1 ∨ v = 2 :=
    main updates (fun _ => none) (by intro c v h; cases h) hfb c v hv
  refine ⟨h012, ?_⟩
  rcases h012 with h | h | h <;> subst h <;> rfl

/-- C10 witness: one update with code 2 on letter `a`. -/
theorem kbFold_values_valid_witness :
    ((2 : Int) = 0 ∨ (2 : Int) = 1 ∨ (2 : Int) = 2) ∧ (STATUS_TO_CLASS 2).isSome = true :=
  kbFold_values_valid [(['a'], [2])] (by decide) 'a' 2 (by rfl)

/-! ## C5 and C6: input validation and the strip/lower normalization

The handler lowercases and strips the raw text (line 148) BEFORE
validating it (line 160), so a raw input containing uppercase letters is
not rejected: it is normalized and, when the normalized form is a valid
word, accepted. -/

/-- C5 counterexample: the raw input "ABCDE" contains characters outside
lowercase a-z, yet `submitGuess` does not fail with `InvalidGuess` — the
input is lowercased first, passes validation, and a record is appended
(history length grows from 0 to 1). -/
theorem uppercase_raw_accepted :
    ('A' ∈ "ABCDE".toList ∧ ¬('a' ≤ 'A' ∧ 'A' ≤ 'z')) ∧
    (submitGuess ⟨[], "crane".toList, [], [], fun _ => none, false⟩ "ABCDE".toList ≠
        Except.error GameErr.InvalidGuess) ∧
    ((submitGuess ⟨[], "crane".toList, [], [], fun _ => none, false⟩
        "ABCDE".toList).toOption.map (fun p => p.1.guesses.length)) = some 1 := by
  have hmap : ((submitGuess ⟨[], "crane".toList, [], [], fun _ => none, false⟩
      "ABCDE".toList).toOption.map (fun p => p.1.guesses.length)) = some 1 := rfl
  refine ⟨by decide, ?_, hmap⟩
  intro h
  rw [h] at hmap
  simp [Except.toOption] at hmap

/-- C5 amended: for every raw input whose stripped-and-lowercased form is
not exactly `WORD_LENGTH` characters or contains a character outside a-z,
`submitGuess` on an in-progress session fails with `InvalidGuess` and the
session is unchanged (no field is touched: the error branch produces no
new session, and a fold over the submission keeps the old one). -/
theorem invalid_normalized_rejected (s : Session) (raw : List Char)
    (hover : s.game_over = false)
    (hbad : (normalize raw).length ≠ WORD_LENGTH ∨
            ∃ c ∈ normalize raw, ¬('a' ≤ c ∧ c ≤ 'z')) :
    submitGuess s raw = Except.error GameErr.InvalidGuess ∧ submitMany s [raw] = s := by
  have hval : validGuess (normalize raw) = false := by
    unfold validGuess
    rcases hbad with h | ⟨c, hc, hcrange⟩
    · simp [h]
    · have : (normalize raw).all (fun c => 'a' ≤ c && c ≤ 'z') = false := by
        rw [List.all_eq_false]
        exact ⟨c, hc, by simpa [Bool.and_eq_true, decide_eq_true_iff] using hcrange⟩
      simp [this]
  have herr : submitGuess s raw = Except.error GameErr.InvalidGuess := by
    unfold submitGuess
    rw [hover]
    simp [hval]
  exact ⟨herr, by simp [submitMany, herr]⟩

/-- C5 amended witness: "ab3de" contains a non-letter and is rejected with
no state change. -/
theorem invalid_normalized_rejected_witness :
    submitGuess ⟨[], "crane".toList, [], [], fun _ => none, false⟩ "ab3de".toList =
      Except.error GameErr.InvalidGuess ∧
    submitMany ⟨[], "crane".toList, [], [], fun _ => none, false⟩ ["ab3de".toList] =
      ⟨[], "crane".toList, [], [], fun _ => none, false⟩ :=
  invalid_normalized_rejected _ _ rfl (Or.inr ⟨'3', by decide, by decide⟩)

/-- C6 counterexample: the raw input "Abbey" contains the uppercase letter
`A`, yet `submitGuess` does not fail with `InvalidGuess`: the input is
lowercased to "abbey", accepted, and a GuessRecord is appended. -/
theorem uppercase_letter_not_rejected :
    ('A'.isUpper = true ∧ 'A' ∈ "Abbey".toList) ∧
    (submitGuess ⟨[], "abbey".toList, [], [], fun _ => none, false⟩ "Abbey".toList ≠
        Except.error GameErr.InvalidGuess) ∧
    ((submitGuess ⟨[], "abbey".toList, [], [], fun _ => none, false⟩
        "Abbey".toList).toOption.map (fun p => p.1.guesses.length)) = some 1 := by
  have hmap : ((submitGuess ⟨[], "abbey".toList, [], [], fun _ => none, false⟩
      "Abbey".toList).toOption.map (fun p => p.1.guesses.length)) = some 1 := rfl
  refine ⟨by decide, ?_, hmap⟩
  intro h
  rw [h] at hmap
  simp [Except.toOption] at hmap

/-- C6 amended: raw input is stripped and lowercased before validation, so
uppercase alphabetic characters never cause a rejection by themselves:
whenever the normalized form is a valid `WORD_LENGTH` lowercase word, the
submission succeeds and appends a GuessRecord for the normalized form. -/
theorem uppercase_normalized_accepted (s : Session) (raw : List Char)
    (hover : s.game_over = false) (hvalid : validGuess (normalize raw) = true) :
    ∃ s' o, submitGuess s raw = Except.ok (s', o) ∧
      s'.guesses = s.guesses ++ [normalize raw] := by
  unfold submitGuess
  rw [hover]
  simp only [Bool.false_eq_true, if_false, hvalid, if_true]
  split
  · exact ⟨_, _, rfl, rfl⟩
  · split
    · exact ⟨_, _, rfl, rfl⟩
    · exact ⟨_, _, rfl, rfl⟩

/-- C6 amended witness: the uppercase raw input "CRANE" is accepted. -/
theorem uppercase_normalized_accepted_witness :
    ∃ s' o, submitGuess ⟨[], "crane".toList, [], [], fun _ => none, false⟩
        "CRANE".toList = Except.ok (s', o) ∧
      s'.guesses = ([] : List (List Char)) ++ [normalize "CRANE".toList] :=
  uppercase_normalized_accepted _ _ rfl (by decide)

/-! ## C3: a matching guess always wins -/

/-- C3: from any in-progress session — in particular one that already
holds `MAX_GUESSES - 1` guesses, so that this is the last allowed
submission — submitting a raw input whose normalized form equals the
answer yields the `Won` outcome, never `Lost`, and ends the game. -/
theorem submit_matching_wins (s : Session) (raw : List Char)
    (hover : s.game_over = false) (hmatch : normalize raw = s.answer)
    (hvalid : validGuess (normalize raw) = true) :
    ∃ s', submitGuess s raw = Except.ok (s', Outcome.Won) ∧ s'.game_over = true ∧
      s'.guesses = s.guesses ++ [s.answer] := by
  unfold submitGuess
  rw [hover]
  have hv2 : validGuess s.answer = true := hmatch ▸ hvalid
  simp only [Bool.false_eq_true, if_false, hmatch, hv2, if_true]
  exact ⟨_, rfl, rfl, rfl⟩

/-- C3 witness: a session with five stored guesses (the sixth and last
submission) still transitions to `Won` on a matching guess. -/
theorem submit_matching_wins_witness :
    ∃ s', submitGuess ⟨[], "crane".toList,
        ["aaaaa".toList, "bbbbb".toList, "ccccc".toList, "ddddd".toList, "eeeee".toList],
        [[0, 0, 1, 0, 0], [0, 0, 0, 0, 0], [1, 0, 0, 0, 0], [0, 0, 0, 0, 0], [0, 1, 0, 0, 1]],
        fun _ => none, false⟩ "crane".toList = Except.ok (s', Outcome.Won) ∧
      s'.game_over = true ∧
      s'.guesses = ["aaaaa".toList, "bbbbb".toList, "ccccc".toList, "ddddd".toList,
        "eeeee".toList] ++ ["crane".toList] :=
  submit_matching_wins _ _ rfl (by decide) (by decide)

/-! ## C8: the history never exceeds MAX_GUESSES -/

/-- A successful submission preserves the session invariant. -/
lemma submit_ok_inv {s s' : Session} {raw : List Char} {o : Outcome}
    (h : submitGuess s raw = Except.ok (s', o)) (hinv : SessionInv s) : SessionInv s' := by
  rcases hinv with ⟨hle, hlt⟩
  unfold submitGuess at h
  by_cases hg : s.game_over = true
  · rw [hg] at h; simp at h
  · have hg' : s.game_over = false := by simpa using hg
    have hlen : s.guesses.length < MAX_GUESSES := hlt hg'
    rw [hg'] at h
    simp only [Bool.false_eq_true, if_false] at h
    split at h
    · split at h
      · simp only [Except.ok.injEq, Prod.mk.injEq] at h
        obtain ⟨hs', -⟩ := h
        subst hs'
        refine ⟨by simpa using hlen, ?_⟩
        intro hfalse
        simp at hfalse
      · split at h
        · simp only [Except.ok.injEq, Prod.mk.injEq] at h
          obtain ⟨hs', -⟩ := h
          subst hs'
          refine ⟨by simpa using hlen, ?_⟩
          intro hfalse
          simp at hfalse
        · rename_i hne hlt2
          simp only [Except.ok.injEq, Prod.mk.injEq] at h
          obtain ⟨hs', -⟩ := h
          subst hs'
          have hc : ¬(s.guesses ++ [normalize raw]).length ≥ MAX_GUESSES := hlt2
          have hlen1 : (s.guesses ++ [normalize raw]).length = s.guesses.length + 1 := by
            simp
          constructor
          · show (s.guesses ++ [normalize raw]).length ≤ MAX_GUESSES
            omega
          · intro _
            show (s.guesses ++ [normalize raw]).length < MAX_GUESSES
            omega
    · simp at h

/-- A restart yields a session satisfying the invariant. -/
lemma restart_inv {s s' : Session} {k : Nat} (h : restart s k = some s') : SessionInv s' := by
  unfold restart choose_answer at h
  cases hc : s.words[k % s.words.length]? with
  | none => rw [hc] at h; simp at h
  | some a =>
    rw [hc] at h
    simp only [Option.map, Option.bind, Option.some.injEq] at h
    subst h
    refine ⟨?_, fun _ => ?_⟩
    · show ([] : List (List Char)).length ≤ MAX_GUESSES
      decide
    · show ([] : List (List Char)).length < MAX_GUESSES
      decide

/-- The session invariant holds in every reachable state. -/
lemma reachable_inv {s : Session} (h : Reachable s) : SessionInv s := by
  induction h with
  | init words k w hw =>
    refine ⟨?_, fun _ => ?_⟩
    · show ([] : List (List Char)).length ≤ MAX_GUESSES
      decide
    · show ([] : List (List Char)).length < MAX_GUESSES
      decide
  | submit_ok hs hok ih => exact submit_ok_inv hok ih
  | restart_ok hs hok ih => exact restart_inv hok

/-- C8: in every session state reachable from a fresh session by any
sequence of `submitGuess` and `restart` operations, the number of stored
guess records is at most `MAX_GUESSES`. -/
theorem reachable_guesses_le_max (s : Session) (h : Reachable s) :
    s.guesses.length ≤ MAX_GUESSES :=
  (reachable_inv h).1

/-- C8 witness: a fresh session over a one-word source. -/
theorem reachable_guesses_le_max_witness :
    (Session.mk [("crane".toList : List Char)] "crane".toList [] [] (fun _ => none)
      false).guesses.length ≤ MAX_GUESSES :=
  reachable_guesses_le_max _ (Reachable.init [("crane".toList : List Char)] 0
    "crane".toList (by rfl))

/-! ## C4: exactly MAX_GUESSES misses lose the game and terminate the session -/

/-- Once the game is over no submission is possible: the input widget is
not rendered, modelled as the `SessionTerminated` error. -/
lemma submitGuess_terminated {s : Session} (h : s.game_over = true) (raw : List Char) :
    submitGuess s raw = Except.error GameErr.SessionTerminated := by
  unfold submitGuess
  rw [h]
  rfl

/-- A finished session is left untouched by any further submissions. -/
lemma submitMany_terminated {s : Session} (h : s.game_over = true) :
    ∀ more, submitMany s more = s := by
  intro more
  induction more with
  | nil => rfl
  | cons r rs ih =>
    show submitMany
      (match submitGuess s r with | .ok (st', _) => st' | .error _ => s) rs = s
    rw [submitGuess_terminated h r]
    exact ih

/-- A valid non-matching submission that does not exhaust the guess budget
appends the guess and keeps the game running. -/
lemma submitGuess_nonmatching_continue {s : Session} {raw : List Char}
    (hover : s.game_over = false) (hval : validGuess (normalize raw) = true)
    (hne : normalize raw ≠ s.answer) (hlt : s.guesses.length + 1 < MAX_GUESSES) :
    submitGuess s raw = Except.ok
      ({ s with
          guesses := s.guesses ++ [normalize raw],
          feedbacks := s.feedbacks ++ [wordle_feedback (normalize raw) s.answer],
          keyboard := update_keyboard s.keyboard (normalize raw)
            (wordle_feedback (normalize raw) s.answer) },
        Outcome.Continue) := by
  unfold submitGuess
  rw [hover]
  simp only [Bool.false_eq_true, if_false, hval, if_true, if_neg hne]
  rw [if_neg]
  show ¬(s.guesses ++ [normalize raw]).length ≥ MAX_GUESSES
  simp only [List.length_append, List.length_cons, List.length_nil]
  omega

/-- A valid non-matching submission that exhausts the guess budget appends
the guess, ends the game, and reports the `Lost` outcome. -/
lemma submitGuess_nonmatching_lost {s : Session} {raw : List Char}
    (hover : s.game_over = false) (hval : validGuess (normalize raw) = true)
    (hne : normalize raw ≠ s.answer) (hge : s.guesses.length + 1 ≥ MAX_GUESSES) :
    submitGuess s raw = Except.ok
      ({ s with
          guesses := s.guesses ++ [normalize raw],
          feedbacks := s.feedbacks ++ [wordle_feedback (normalize raw) s.answer],
          keyboard := update_keyboard s.keyboard (normalize raw)
            (wordle_feedback (normalize raw) s.answer),
          game_over := true },
        Outcome.Lost) := by
  unfold submitGuess
  rw [hover]
  simp only [Bool.false_eq_true, if_false, hval, if_true, if_neg hne]
  rw [if_pos]
  show (s.guesses ++ [normalize raw]).length ≥ MAX_GUESSES
  simp only [List.length_append, List.length_cons, List.length_nil]
  omega

/-- Running a list of valid non-matching submissions within the guess
budget: the answer is unchanged, each guess is recorded, and the game ends
exactly when the budget is reached. -/
lemma submitMany_nonmatching :
    ∀ (raws : List (List Char)) (s : Session),
      s.game_over = false →
      s.guesses.length < MAX_GUESSES →
      s.guesses.length + raws.length ≤ MAX_GUESSES →
      (∀ r ∈ raws, validGuess (normalize r) = true ∧ normalize r ≠ s.answer) →
      (submitMany s raws).answer = s.answer ∧
      (submitMany s raws).guesses.length = s.guesses.length + raws.length ∧
      ((submitMany s raws).game_over = true ↔
        s.guesses.length + raws.length = MAX_GUESSES) := by
  intro raws
  induction raws with
  | nil =>
    intro s hover hlt _ _
    refine ⟨rfl, by simp [submitMany], ?_⟩
    show s.game_over = true ↔ _
    rw [hover, List.length_nil, Nat.add_zero]
    simp only [Bool.false_eq_true, false_iff]
    omega
  | cons r rs ih =>
    intro s hover hlt hle hall
    obtain ⟨hval, hne⟩ := hall r (List.mem_cons_self r rs)
    simp only [List.length_cons] at hle
    by_cases hge : s.guesses.length + 1 ≥ MAX_GUESSES
    · have hrs : rs = [] := by
        have : rs.length = 0 := by omega
        exact List.length_eq_zero.mp this
      subst hrs
      have hstep : submitMany s [r] =
          { s with
              guesses := s.guesses ++ [normalize r],
              feedbacks := s.feedbacks ++ [wordle_feedback (normalize r) s.answer],
              keyboard := update_keyboard s.keyboard (normalize r)
                (wordle_feedback (normalize r) s.answer),
              game_over := true } := by
        show (match submitGuess s r with | .ok (st', _) => st' | .error _ => s) = _
        rw [submitGuess_nonmatching_lost hover hval hne hge]
      rw [hstep]
      refine ⟨rfl, ?_, ?_⟩
      · show (s.guesses ++ [normalize r]).length = s.guesses.length + [r].length
        simp
      · show true = true ↔ s.guesses.length + [r].length = MAX_GUESSES
        simp only [List.length_cons, List.length_nil, true_iff]
        omega
    · have hlt1 : s.guesses.length + 1 < MAX_GUESSES := by omega
      have hstep : submitMany s (r :: rs) = submitMany
          { s with
              guesses := s.guesses ++ [normalize r],
              feedbacks := s.feedbacks ++ [wordle_feedback (normalize r) s.answer],
              keyboard := update_keyboard s.keyboard (normalize r)
                (wordle_feedback (normalize r) s.answer) } rs := by
        show submitMany
          (match submitGuess s r with | .ok (st', _) => st' | .error _ => s) rs = _
        rw [submitGuess_nonmatching_continue hover hval hne hlt1]
      rw [hstep]
      have hrec := ih { s with
          guesses := s.guesses ++ [normalize r],
          feedbacks := s.feedbacks ++ [wordle_feedback (normalize r) s.answer],
          keyboard := update_keyboard s.keyboard (normalize r)
            (wordle_feedback (normalize r) s.answer) }
        hover (by simp only [List.length_append, List.length_cons, List.length_nil]; omega)
        (by simp only [List.length_append, List.length_cons, List.length_nil]; omega)
        (fun r' hr' => hall r' (List.mem_cons_of_mem r hr'))
      obtain ⟨ha, hg, ho⟩ := hrec
      refine ⟨ha, ?_, ?_⟩
      · rw [hg]
        show (s.guesses ++ [normalize r]).length + rs.length =
          s.guesses.length + (r :: rs).length
        simp only [List.length_append, List.length_cons, List.length_nil]
        omega
      · rw [ho]
        show (s.guesses ++ [normalize r]).length + rs.length = MAX_GUESSES ↔
          s.guesses.length + (r :: rs).length = MAX_GUESSES
        simp only [List.length_append, List.length_cons, List.length_nil]
        omega

/-- C4: starting from a fresh session, after exactly `MAX_GUESSES` valid
submissions none of which matches the answer, the last submission reports
the `Lost` outcome and ends the game with `MAX_GUESSES` stored records,
and every subsequent `submitGuess` call is rejected with
`SessionTerminated`, leaving the whole session — history, feedbacks,
keyboard and answer — unchanged. -/
theorem lost_after_max_nonmatching (s0 : Session) (pre : List (List Char))
    (last : List Char)
    (hover : s0.game_over = false) (hempty : s0.guesses = [])
    (hlen : (pre ++ [last]).length = MAX_GUESSES)
    (hall : ∀ r ∈ pre ++ [last], validGuess (normalize r) = true ∧
      normalize r ≠ s0.answer) :
    ∃ sf, submitGuess (submitMany s0 pre) last = Except.ok (sf, Outcome.Lost) ∧
      submitMany s0 (pre ++ [last]) = sf ∧ sf.game_over = true ∧
      sf.guesses.length = MAX_GUESSES ∧
      (∀ raw, submitGuess sf raw = Except.error GameErr.SessionTerminated) ∧
      (∀ more, submitMany sf more = sf) := by
  have hpre : pre.length + 1 = MAX_GUESSES := by
    simpa using hlen
  have hempl : s0.guesses.length = 0 := by rw [hempty]; rfl
  have hrun := submitMany_nonmatching pre s0 hover
    (by rw [hempl]; show 0 < MAX_GUESSES; decide)
    (by omega)
    (fun r hr => hall r (List.mem_append_left _ hr))
  obtain ⟨ha5, hg5, ho5⟩ := hrun
  set s5 := submitMany s0 pre with hs5
  have hover5 : s5.game_over = false := by
    cases hgo : s5.game_over with
    | false => rfl
    | true =>
      exfalso
      have hP := ho5.mp hgo
      omega
  obtain ⟨hvall, hnel⟩ := hall last (List.mem_append_right _ (List.mem_cons_self _ _))
  have hnel5 : normalize last ≠ s5.answer := by rw [ha5]; exact hnel
  have hge5 : s5.guesses.length + 1 ≥ MAX_GUESSES := by
    rw [hg5]
    omega
  have hsub := submitGuess_nonmatching_lost hover5 hvall hnel5 hge5
  have hsplit : submitMany s0 (pre ++ [last]) = submitMany (submitMany s0 pre) [last] := by
    unfold submitMany
    exact List.foldl_append _ _ _ _
  refine ⟨_, hsub, ?_, rfl, ?_, ?_, ?_⟩
  · rw [hsplit, ← hs5]
    show (match submitGuess s5 last with | .ok (st', _) => st' | .error _ => s5) = _
    rw [hsub]
  · show (s5.guesses ++ [normalize last]).length = MAX_GUESSES
    simp only [List.length_append, List.length_cons, List.length_nil]
    omega
  · exact fun raw => submitGuess_terminated rfl raw
  · exact submitMany_terminated rfl

/-- C4 witness: six distinct valid misses against the answer "crane". -/
theorem lost_after_max_nonmatching_witness :
    ∃ sf, submitGuess (submitMany ⟨[], "crane".toList, [], [], fun _ => none, false⟩
        ["aaaaa".toList, "bbbbb".toList, "dddjj".toList, "eeeee".toList, "fffff".toList])
        "ggggg".toList = Except.ok (sf, Outcome.Lost) ∧
      submitMany ⟨[], "crane".toList, [], [], fun _ => none, false⟩
        (["aaaaa".toList, "bbbbb".toList, "dddjj".toList, "eeeee".toList, "fffff".toList]
          ++ ["ggggg".toList]) = sf ∧
      sf.game_over = true ∧ sf.guesses.length = MAX_GUESSES ∧
      (∀ raw, submitGuess sf raw = Except.error GameErr.SessionTerminated) ∧
      (∀ more, submitMany sf more = sf) :=
  lost_after_max_nonmatching _ _ _ rfl rfl (by decide) (by decide)

/-! ## C1: the multiset bound of the two-pass feedback algorithm -/

/-- Pass 2 never changes the length of the result list. -/
lemma pass2_length : ∀ (g : List Char) (res : List Int) (rem : Char → Nat),
    (pass2 rem g res).length = res.length := by
  intro g
  induction g with
  | nil => intro res rem; rfl
  | cons gh gt ih =>
    intro res rem
    cases res with
    | nil => rfl
    | cons r rs =>
      unfold pass2
      split
      · simp [ih]
      · split
        · simp [ih]
        · simp [ih]

/-- The result list of pass 1 marks 2 exactly at the positions where guess
and answer agree, position by position over the zip. -/
lemma pass1_fst : ∀ (g a : List Char) (rem : Char → Nat),
    (pass1 g a rem).1 = (g.zip a).map (fun p => if p.1 = p.2 then (2 : Int) else 0) := by
  intro g
  induction g with
  | nil => intro a rem; rfl
  | cons gh gt ih =>
    intro a rem
    cases a with
    | nil => rfl
    | cons ah at_ =>
      unfold pass1
      by_cases hga : gh = ah
      · simp [hga, ih]
      · simp [hga, ih]

/-- The final `remaining` dict of pass 1 counts, letter by letter, the
answer positions that were not exactly matched. -/
lemma pass1_snd (c : Char) : ∀ (g a : List Char) (rem : Char → Nat),
    (pass1 g a rem).2 c =
      rem c + ((g.zip a).filter (fun p => p.2 == c && p.1 != p.2)).length := by
  intro g
  induction g with
  | nil => intro a rem; simp [pass1]
  | cons gh gt ih =>
    intro a rem
    cases a with
    | nil => simp [pass1]
    | cons ah at_ =>
      unfold pass1
      by_cases hga : gh = ah
      · rw [if_pos hga]
        simp only [List.zip_cons_cons, List.filter_cons]
        have hpred : (ah == c && gh != ah) = false := by
          simp [hga]
        rw [hpred]
        simp only [Bool.false_eq_true, if_false]
        exact ih at_ rem
      · rw [if_neg hga]
        simp only [List.zip_cons_cons, List.filter_cons]
        have hpred : (ah == c && gh != ah) = (ah == c) := by
          simp [bne_iff_ne, hga]
        rw [hpred, ih at_ (incr rem ah)]
        by_cases hac : ah = c
        · subst hac
          simp only [beq_self_eq_true, if_pos, List.length_cons, incr, if_pos rfl]
          omega
        · have : (ah == c) = false := by simp [hac]
          rw [this]
          simp only [Bool.false_eq_true, if_false, incr]
          have : (if c = ah then rem c + 1 else rem c) = rem c := by
            rw [if_neg (fun h => hac h.symm)]
          rw [this]

/-- Zipping a list with a map over its own zip. -/
lemma zip_map_snd (f : Char × Char → Int) : ∀ (g a : List Char),
    g.zip ((g.zip a).map f) = (g.zip a).map (fun p => (p.1, f p)) := by
  intro g
  induction g with
  | nil => intro a; rfl
  | cons gh gt ih =>
    intro a
    cases a with
    | nil => rfl
    | cons ah at_ =>
      simp only [List.zip_cons_cons, List.map_cons]
      rw [ih]

/-- The counting heart of pass 2: for any letter `c`, the positions of `c`
carrying a nonzero mark after pass 2 are the ones already nonzero before,
plus as many freshly marked 1s as the `remaining` budget of `c` allows
among the zero-marked positions of `c` — a `min` of budget and demand. -/
lemma pass2_count (c : Char) : ∀ (g : List Char) (res : List Int) (rem : Char → Nat),
    ((g.zip (pass2 rem g res)).filter (fun p => p.1 == c && p.2 != 0)).length
      = ((g.zip res).filter (fun p => p.1 == c && p.2 != 0)).length
        + min (rem c) (((g.zip res).filter (fun p => p.1 == c && p.2 == 0)).length) := by
  intro g
  induction g with
  | nil => intro res rem; simp [pass2]
  | cons gh gt ih =>
    intro res rem
    cases res with
    | nil => simp [pass2]
    | cons r rs =>
      unfold pass2
      by_cases hr : r = 0
      · rw [if_neg (by simp [hr])]
        by_cases hgt : rem gh > 0
        · rw [if_pos hgt]
          simp only [List.zip_cons_cons, List.filter_cons]
          by_cases hgc : gh = c
          · have h1 : (gh == c && ((1 : Int) != 0)) = true := by simp [hgc]
            have h2 : (gh == c && (r != 0)) = false := by simp [hr]
            have h3 : (gh == c && (r == 0)) = true := by simp [hgc, hr]
            rw [h1, h2, h3]
            simp only [if_true, if_false, Bool.false_eq_true, List.length_cons]
            rw [ih rs (decr rem gh)]
            have hdecr : decr rem gh c = rem c - 1 := by
              simp [decr, hgc]
            have hremc : rem c > 0 := by rw [← hgc]; exact hgt
            rw [hdecr]
            omega
          · have h1 : (gh == c && ((1 : Int) != 0)) = false := by simp [hgc]
            have h2 : (gh == c && (r != 0)) = false := by simp [hgc]
            have h3 : (gh == c && (r == 0)) = false := by simp [hgc]
            rw [h1, h2, h3]
            simp only [if_false, Bool.false_eq_true]
            rw [ih rs (decr rem gh)]
            have hdecr : decr rem gh c = rem c := by
              simp only [decr]
              rw [if_neg (fun h => hgc (h.symm))]
            rw [hdecr]
        · rw [if_neg hgt]
          simp only [List.zip_cons_cons, List.filter_cons]
          by_cases hgc : gh = c
          · have h1 : (gh == c && ((0 : Int) != 0)) = false := by simp
            have h2 : (gh == c && (r != 0)) = false := by simp [hr]
            have h3 : (gh == c && (r == 0)) = true := by simp [hgc, hr]
            rw [h1, h2, h3]
            simp only [if_true, if_false, Bool.false_eq_true, List.length_cons]
            rw [ih rs rem]
            have hremc : rem c = 0 := by rw [← hgc]; omega
            rw [hremc]
            omega
          · have h1 : (gh == c && ((0 : Int) != 0)) = false := by simp
            have h2 : (gh == c && (r != 0)) = false := by simp [hgc]
            have h3 : (gh == c && (r == 0)) = false := by simp [hgc]
            rw [h1, h2, h3]
            simp only [if_false, Bool.false_eq_true]
            exact ih rs rem
      · rw [if_pos hr]
        simp only [List.zip_cons_cons, List.filter_cons]
        by_cases hgc : gh = c
        · have h1 : (gh == c && (r != 0)) = true := by simp [hgc, hr]
          have h3 : (gh == c && (r == 0)) = false := by simp [hr]
          rw [h1, h3]
          simp only [if_true, if_false, Bool.false_eq_true, List.length_cons]
          rw [ih rs rem]
          omega
        · have h1 : (gh == c && (r != 0)) = false := by simp [hgc]
          have h3 : (gh == c && (r == 0)) = false := by simp [hgc]
          rw [h1, h3]
          simp only [if_false, Bool.false_eq_true]
          exact ih rs rem

/-- A filter's length splits along any second Boolean test. -/
lemma filter_length_split {α : Type} (l : List α) (q r : α → Bool) :
    (l.filter q).length =
      (l.filter (fun x => q x && r x)).length +
      (l.filter (fun x => q x && !r x)).length := by
  induction l with
  | nil => rfl
  | cons x xs ih =>
    simp only [List.filter_cons]
    by_cases hq : q x = true
    · by_cases hr : r x = true <;>
        simp only [hq, hr, Bool.true_and, Bool.not_true, Bool.not_false, if_true, if_false,
          Bool.false_eq_true, List.length_cons] <;> omega
    · have hq' : q x = false := by simpa using hq
      simp only [hq', Bool.false_and, Bool.false_eq_true, if_false]
      exact ih

/-- Occurrences of `c` in the second list of a zip of equal lengths. -/
lemma count_eq_zip_snd {α : Type} (c : Char) : ∀ (g : List α) (a : List Char),
    g.length = a.length →
    a.count c = ((g.zip a).filter (fun p => p.2 == c)).length := by
  intro g
  induction g with
  | nil =>
    intro a h
    have ha : a = [] := List.length_eq_zero.mp (by simpa using h.symm)
    subst ha
    rfl
  | cons gh gt ih =>
    intro a h
    cases a with
    | nil => simp at h
    | cons ah at_ =>
      simp only [List.length_cons] at h
      simp only [List.count_cons, List.zip_cons_cons, List.filter_cons]
      rw [ih at_ (by omega)]
      by_cases hac : ah = c
      · simp [hac]
      · simp [hac]

/-- Occurrences of `c` in the first list of a zip of equal lengths. -/
lemma count_eq_zip_fst {β : Type} (c : Char) : ∀ (g : List Char) (b : List β),
    g.length = b.length →
    g.count c = ((g.zip b).filter (fun p => p.1 == c)).length := by
  intro g
  induction g with
  | nil => intro b h; rfl
  | cons gh gt ih =>
    intro b h
    cases b with
    | nil => simp at h
    | cons bh bt =>
      simp only [List.length_cons] at h
      simp only [List.count_cons, List.zip_cons_cons, List.filter_cons]
      rw [ih bt (by omega)]
      by_cases hgc : gh = c
      · simp [hgc]
      · simp [hgc]

/-- A zip lookup from lookups of both components. -/
lemma zip_getElem_some {α β : Type} (g : List α) (a : List β) (i : Nat) (x : α) (y : β)
    (h1 : g[i]? = some x) (h2 : a[i]? = some y) : (g.zip a)[i]? = some (x, y) := by
  rw [List.getElem?_zip_eq_some]
  exact ⟨h1, h2⟩

/-- Pass 2 keeps every already-nonzero mark exactly where it is. -/
lemma pass2_getElem_nonzero : ∀ (g : List Char) (res : List Int) (rem : Char → Nat)
    (i : Nat) (r : Int), res[i]? = some r → r ≠ 0 → (pass2 rem g res)[i]? = some r := by
  intro g
  induction g with
  | nil => intro res rem i r h hr; exact h
  | cons gh gt ih =>
    intro res rem i r h hr
    cases res with
    | nil => simp at h
    | cons r0 rs =>
      cases i with
      | zero =>
        simp only [List.getElem?_cons_zero, Option.some.injEq] at h
        subst h
        unfold pass2
        rw [if_pos hr]
        simp
      | succ j =>
        simp only [List.getElem?_cons_succ] at h
        unfold pass2
        split
        · simp only [List.getElem?_cons_succ]
          exact ih rs rem j r h hr
        · split
          · simp only [List.getElem?_cons_succ]
            exact ih rs (decr rem gh) j r h hr
          · simp only [List.getElem?_cons_succ]
            exact ih rs rem j r h hr

/-- On validated length-`WORD_LENGTH` words the padding of the result list
is empty and `wordle_feedback` is exactly pass 2 after pass 1. -/
lemma wordle_feedback_eq (g a : List Char) (hg : g.length = WORD_LENGTH)
    (ha : a.length = WORD_LENGTH) :
    wordle_feedback g a =
      pass2 ((pass1 g a (fun _ => 0)).2) g ((pass1 g a (fun _ => 0)).1) := by
  unfold wordle_feedback
  rw [hg, ha]
  simp

/-- Closed form of the Present-or-Correct count: the exact positional
matches of `c`, plus as many extra Present marks as both the leftover
budget of `c` in the answer and the unmatched `c` positions of the guess
allow. -/
lemma markedPC_eq (c : Char) (g a : List Char) (hg : g.length = WORD_LENGTH)
    (ha : a.length = WORD_LENGTH) :
    markedPC c g (wordle_feedback g a) =
      ((g.zip a).filter (fun p => p.1 == c && p.1 == p.2)).length +
      min (((g.zip a).filter (fun p => p.2 == c && p.1 != p.2)).length)
          (((g.zip a).filter (fun p => p.1 == c && p.1 != p.2)).length) := by
  unfold markedPC
  rw [wordle_feedback_eq g a hg ha]
  rw [pass2_count c g ((pass1 g a (fun _ => 0)).1) ((pass1 g a (fun _ => 0)).2)]
  rw [pass1_snd c g a (fun _ => 0)]
  rw [pass1_fst g a (fun _ => 0)]
  rw [zip_map_snd]
  rw [List.filter_map, List.length_map, List.filter_map, List.length_map]
  have hcong1 : (g.zip a).filter
      ((fun p : Char × Int => p.1 == c && p.2 != 0) ∘
        (fun p : Char × Char => (p.1, if p.1 = p.2 then (2 : Int) else 0)))
      = (g.zip a).filter (fun p => p.1 == c && p.1 == p.2) := by
    apply List.filter_congr
    intro p _
    by_cases h12 : p.1 = p.2 <;> simp [Function.comp, h12]
  have hcong2 : (g.zip a).filter
      ((fun p : Char × Int => p.1 == c && p.2 == 0) ∘
        (fun p : Char × Char => (p.1, if p.1 = p.2 then (2 : Int) else 0)))
      = (g.zip a).filter (fun p => p.1 == c && p.1 != p.2) := by
    apply List.filter_congr
    intro p _
    by_cases h12 : p.1 = p.2 <;> simp [Function.comp, h12]
  rw [hcong1, hcong2]
  simp only [Nat.zero_add]

/-- Occurrences of `c` in the answer split into exact matches of `c` and
the leftover counted by pass 1. -/
lemma count_split_snd (c : Char) : ∀ (g a : List Char), g.length = a.length →
    a.count c =
      ((g.zip a).filter (fun p => p.1 == c && p.1 == p.2)).length +
      ((g.zip a).filter (fun p => p.2 == c && p.1 != p.2)).length := by
  intro g
  induction g with
  | nil =>
    intro a h
    have ha : a = [] := List.length_eq_zero.mp (by simpa using h.symm)
    subst ha
    rfl
  | cons gh gt ih =>
    intro a h
    cases a with
    | nil => simp at h
    | cons ah at_ =>
      simp only [List.length_cons] at h
      have hih := ih at_ (by omega)
      simp only [List.count_cons, List.zip_cons_cons, List.filter_cons]
      by_cases hga : gh = ah
      · by_cases hac : ah = c <;> simp [hga, hac, List.length_cons] <;> omega
      · by_cases hac : ah = c
        · have hgc : ¬gh = c := fun h => hga (h.trans hac.symm)
          simp [hga, hac, hgc, List.length_cons] <;> omega
        · simp [hga, hac, List.length_cons] <;> omega

/-- Occurrences of `c` in the guess split into exact matches of `c` and
unmatched guess positions of `c`. -/
lemma count_split_fst (c : Char) : ∀ (g a : List Char), g.length = a.length →
    g.count c =
      ((g.zip a).filter (fun p => p.1 == c && p.1 == p.2)).length +
      ((g.zip a).filter (fun p => p.1 == c && p.1 != p.2)).length := by
  intro g
  induction g with
  | nil => intro a h; rfl
  | cons gh gt ih =>
    intro a h
    cases a with
    | nil => simp at h
    | cons ah at_ =>
      simp only [List.length_cons] at h
      have hih := ih at_ (by omega)
      simp only [List.count_cons, List.zip_cons_cons, List.filter_cons]
      by_cases hgc : gh = c
      · by_cases hga : gh = ah
        · have h2 : ah = c := hga.symm.trans hgc
          simp [hgc, h2, List.length_cons] <;> omega
        · have h2 : ¬c = ah := fun h => hga (hgc.trans h)
          simp [hgc, hga, h2, List.length_cons] <;> omega
      · by_cases hga : gh = ah
        · have h2 : ¬ah = c := fun h => hgc (hga.trans h)
          simp [hgc, hga, h2, List.length_cons] <;> omega
        · simp [hgc, hga, List.length_cons] <;> omega

/-- Every position of `c` in the guess is marked either Present-or-Correct
or Absent. -/
lemma marked_split (c : Char) : ∀ (g : List Char) (fb : List Int),
    g.length = fb.length →
    g.count c = markedPC c g fb + markedAbsent c g fb := by
  intro g
  induction g with
  | nil => intro fb h; rfl
  | cons gh gt ih =>
    intro fb h
    cases fb with
    | nil => simp at h
    | cons r rs =>
      simp only [List.length_cons] at h
      have hih := ih rs (by omega)
      unfold markedPC markedAbsent at hih ⊢
      simp only [List.count_cons, List.zip_cons_cons, List.filter_cons]
      by_cases hgc : gh = c <;> by_cases hr : r = 0 <;>
        simp [hgc, hr, List.length_cons] <;> omega

/-- C1: for every guess and answer of length `WORD_LENGTH` over lowercase
letters and every letter `c`, the number of positions `wordle_feedback`
marks Present or Correct for `c` never exceeds the occurrences of `c` in
the answer; positional matches are always marked Correct (2); and when the
guess holds exactly two `c` while the answer holds exactly one, exactly
one position of `c` is marked Present-or-Correct and exactly one Absent. -/
theorem wordle_feedback_letter_bound (guess answer : List Char)
    (hg : guess.length = WORD_LENGTH) (ha : answer.length = WORD_LENGTH)
    (hlg : ∀ ch ∈ guess, 'a' ≤ ch ∧ ch ≤ 'z')
    (hla : ∀ ch ∈ answer, 'a' ≤ ch ∧ ch ≤ 'z') (c : Char) :
    markedPC c guess (wordle_feedback guess answer) ≤ answer.count c ∧
    (∀ i : Nat, guess[i]? = some c → answer[i]? = some c →
      (wordle_feedback guess answer)[i]? = some 2) ∧
    (guess.count c = 2 → answer.count c = 1 →
      markedPC c guess (wordle_feedback guess answer) = 1 ∧
      markedAbsent c guess (wordle_feedback guess answer) = 1) := by
  have hlen : guess.length = answer.length := by rw [hg, ha]
  have hmp := markedPC_eq c guess answer hg ha
  have hca := count_split_snd c guess answer hlen
  have hcg := count_split_fst c guess answer hlen
  have hfblen : guess.length = (wordle_feedback guess answer).length := by
    rw [wordle_feedback_eq guess answer hg ha, pass2_length, pass1_fst, List.length_map,
      List.length_zip]
    omega
  have hms := marked_split c guess (wordle_feedback guess answer) hfblen
  refine ⟨?_, ?_, ?_⟩
  · rw [hmp, hca]
    omega
  · intro i h1 h2
    rw [wordle_feedback_eq guess answer hg ha]
    exact pass2_getElem_nonzero guess ((pass1 guess answer (fun _ => 0)).1)
      ((pass1 guess answer (fun _ => 0)).2) i 2
      (by
        rw [pass1_fst, List.getElem?_map, zip_getElem_some guess answer i c c h1 h2]
        simp)
      (by norm_num)
  · intro h2g h1a
    refine ⟨by omega, by omega⟩

/-- C1 witness: guess "aaxyz" against answer "abcde" — the letter `a`
occurs twice in the guess and once in the answer. -/
theorem wordle_feedback_letter_bound_witness :
    markedPC 'a' "aaxyz".toList (wordle_feedback "aaxyz".toList "abcde".toList) ≤
        ("abcde".toList).count 'a' ∧
    (∀ i : Nat, ("aaxyz".toList)[i]? = some 'a' → ("abcde".toList)[i]? = some 'a' →
      (wordle_feedback "aaxyz".toList "abcde".toList)[i]? = some 2) ∧
    (("aaxyz".toList).count 'a' = 2 → ("abcde".toList).count 'a' = 1 →
      markedPC 'a' "aaxyz".toList (wordle_feedback "aaxyz".toList "abcde".toList) = 1 ∧
      markedAbsent 'a' "aaxyz".toList (wordle_feedback "aaxyz".toList "abcde".toList) = 1) :=
  wordle_feedback_letter_bound _ _ (by decide) (by decide) (by decide) (by decide) 'a'

end Slurdle
